import Mathlib

set_option autoImplicit false

/-!
Shallow embedding of the type-registry / dependency-resolver stage of
protoc-gen-grpc-gateway-ts (src/registry/registry.go).

Go strings are modelled as `List Char` (byte positions and character positions
coincide on the ASCII path and type-name inputs this generator handles).  The
Go standard-library path functions the source calls (`path.Clean`,
`filepath.Dir`, `filepath.Rel`, `path.Join`, `filepath.Ext`) are modelled at
the character-list level for a '/'-separator platform, where
`filepath.ToSlash` and `filepath.FromSlash` are identities.  The filesystem
behind `filepath.Glob` and `os.Getwd` is an oracle parameter.  Go runtime
panics (out-of-range index and slice expressions) are modelled as a separate
error constructor, distinct from returned `error` values.
-/

namespace GatewayTS

/-- Go strings are modelled as lists of characters. -/
abbrev GoString := List Char

/-- The two-character component `..`. -/
def dotdot : GoString := ['.', '.']

/-- Split a character list on '/'; pieces between separators, possibly empty. -/
def splitSlash : List Char → List GoString
  | [] => [[]]
  | c :: rest =>
    if c = '/' then [] :: splitSlash rest
    else
      match splitSlash rest with
      | [] => [[c]]
      | p :: ps => (c :: p) :: ps

/-- Join components with '/' separators. -/
def joinComps : List GoString → GoString
  | [] => []
  | [c] => c
  | c :: cs => c ++ '/' :: joinComps cs

/-- Whether a path string is rooted (starts with '/'). -/
def isAbsL : GoString → Bool
  | [] => false
  | c :: _ => c = '/'

/-- One step of Go path.Clean element processing: skip empty and `.` elements,
let `..` cancel a preceding non-`..` element (and vanish at the root of a
rooted path), push everything else. -/
def cleanStep (abs : Bool) (stack : List GoString) (comp : GoString) : List GoString :=
  if comp = [] ∨ comp = ['.'] then stack
  else if comp = dotdot then
    if stack ≠ [] ∧ stack.getLast? ≠ some dotdot then stack.dropLast
    else if abs then stack else stack ++ [dotdot]
  else stack ++ [comp]

/-- Cleaned component list of a path given as raw slash-separated pieces. -/
def cleanComps (abs : Bool) (cs : List GoString) : List GoString :=
  cs.foldl (cleanStep abs) []

/-- Render a cleaned component list back into a path string. -/
def renderPath (abs : Bool) (cs : List GoString) : GoString :=
  if cs = [] then (if abs then ['/'] else ['.'])
  else (if abs then ['/'] else []) ++ joinComps cs

/-- Model of Go path.Clean / filepath.Clean on a '/'-separator platform. -/
def goClean (s : GoString) : GoString :=
  renderPath (isAbsL s) (cleanComps (isAbsL s) (splitSlash s))

/-- Everything up to and including the final '/' of a string ([] when the
string has no '/'). -/
def upToLastSlash (s : GoString) : GoString :=
  (s.reverse.dropWhile (fun c => c ≠ '/')).reverse

/-- Model of Go filepath.Dir: the prefix up to the final separator, cleaned. -/
def goDir (s : GoString) : GoString := goClean (upToLastSlash s)

/-- Model of Go path.Join on two elements: empty elements are skipped, the
rest is joined with '/' and cleaned. -/
def goJoin (a b : GoString) : GoString :=
  if a = [] then (if b = [] then [] else goClean b)
  else goClean (a ++ '/' :: b)

/-- Model of Go path.Join on three nonempty elements (the glob pattern
`Join(root, "**", file)` built at registry.go line 171). -/
def goJoin3 (a b c : GoString) : GoString := goClean (a ++ '/' :: b ++ '/' :: c)

/-- Raw component list of a path string (empty pieces dropped). -/
def splitComps (s : GoString) : List GoString :=
  (splitSlash s).filter (fun c => c ≠ [])

/-- Strip the common leading elements of two lists. -/
def stripCommon : List GoString → List GoString → List GoString × List GoString
  | a :: as, b :: bs => if a = b then stripCommon as bs else (a :: as, b :: bs)
  | as, bs => (as, bs)

/-- The cleaned base path of Go filepath.Rel, with `.` replaced by the empty
string (the `if base == "." { base = "" }` step). -/
def relBase (basepath : GoString) : GoString :=
  if goClean basepath = ['.'] then [] else goClean basepath

/-- The pair of component lists left after stripping the common prefix of the
cleaned base and target of filepath.Rel. -/
def relRemainder (basepath targpath : GoString) : List GoString × List GoString :=
  stripCommon (splitComps (relBase basepath)) (splitComps (goClean targpath))

/-- Model of Go filepath.Rel on a '/'-separator platform: clean both paths,
answer `.` for equal paths, refuse mixed rooted/relative arguments, strip the
common component prefix, refuse when the first remaining base component is
`..`, and otherwise climb with one `..` per remaining base component before
descending into the remaining target components. -/
def goRel (basepath targpath : GoString) : Except GoString GoString :=
  if goClean targpath = goClean basepath then .ok ['.']
  else if isAbsL (relBase basepath) ≠ isAbsL (goClean targpath) then
    .error ("Rel: cannot make ".data ++ targpath ++ " relative to ".data ++ basepath)
  else if (relRemainder basepath targpath).1.head? = some dotdot then
    .error ("Rel: cannot make ".data ++ targpath ++ " relative to ".data ++ basepath)
  else
    .ok (joinComps (List.replicate (relRemainder basepath targpath).1.length dotdot ++
      (relRemainder basepath targpath).2))

/-- Model of Go filepath.Ext: the suffix starting at the final dot of the
final path element; empty when the final element has no dot. -/
def goExt (s : GoString) : GoString :=
  let rev := s.reverse.takeWhile (fun c => c ≠ '/')
  if '.' ∈ rev then ((rev.takeWhile (fun c => c ≠ '.')) ++ ['.']).reverse else []

/-- Model of Go filepath.Abs with the working directory passed explicitly
(Getwd failure, the only error source of Abs, is not modelled). -/
def goAbs (cwd p : GoString) : GoString :=
  if isAbsL p then goClean p else goJoin cwd p

/-- Largest index at which `sub` occurs in the string, if any. -/
def lastIndexAux (sub : GoString) : GoString → Option Nat
  | [] => if sub = [] then some 0 else none
  | c :: rest =>
    match lastIndexAux sub rest with
    | some i => some (i + 1)
    | none => if sub.isPrefixOf (c :: rest) then some 0 else none

/-- Model of Go strings.LastIndex: index of the last occurrence, or -1. -/
def goLastIndex (s sub : GoString) : Int :=
  match lastIndexAux sub s with
  | some i => (i : Int)
  | none => -1

/-- Returned Go errors versus Go runtime panics: the source distinguishes the
two failure modes (an error aborts with a wrapped message, a panic crashes). -/
inductive RunError where
  | err (msg : GoString)
  | panic (msg : GoString)
deriving DecidableEq

/-- Model of the Go slice expression `s[0:i]`: panics when i is out of range
(in particular when i is the -1 of a failed LastIndex). -/
def goSliceTo (s : GoString) (i : Int) : Except RunError GoString :=
  if i < 0 ∨ (s.length : Int) < i then .error (.panic "slice bounds out of range".data)
  else .ok (s.take i.toNat)

/-- Model of Go strings.Contains. -/
def goContains (s sub : GoString) : Bool :=
  sub.isPrefixOf s ||
    match s with
    | [] => false
    | _ :: rest => goContains rest sub

/-- Fueled body of strings.Replace: scan left to right, replacing
non-overlapping occurrences; the fuel (initially the string length) only
serves structural recursion and never runs out for nonempty patterns. -/
def goReplaceAllAux (old new : GoString) : Nat → GoString → GoString
  | 0, s => s
  | _ + 1, [] => []
  | fuel + 1, c :: rest =>
    if old.isPrefixOf (c :: rest) then
      new ++ goReplaceAllAux old new fuel ((c :: rest).drop old.length)
    else
      c :: goReplaceAllAux old new fuel rest

/-- Model of Go strings.ReplaceAll for a nonempty pattern (the source only
calls it with the absolute import root as the pattern). -/
def goReplaceAll (s old new : GoString) : GoString :=
  if old = [] then s else goReplaceAllAux old new s.length s

/-- MapEntryType (registry.go): key/value descriptor of a synthetic map entry. -/
structure MapEntryType where
  type : GoString
  isExternal : Bool
deriving DecidableEq

/-- TypeInformation (registry.go lines 77-96); the proto wire type is modelled
as a numeric code. -/
structure TypeInformation where
  fullyQualifiedName : GoString
  package : GoString
  file : GoString
  packageIdentifier : GoString
  localIdentifier : GoString
  protoType : Nat
  isMapEntry : Bool
  keyType : Option MapEntryType
  valueType : Option MapEntryType
deriving DecidableEq

/-- Dependency (data package): one import statement of a generated file,
module identifier plus extension-stripped source path. -/
structure Dependency where
  moduleIdentifier : GoString
  sourceFile : GoString
deriving DecidableEq

/-- Modelled from the spec: data.File is not under src/.  Spec section 3 lists
the fields this stage reads and writes - the generated-output file name, the
externally-depended-on type names, and the dependency list the resolver
appends to. -/
structure File where
  tsFileName : GoString
  externalDependingTypes : List GoString
  dependencies : List Dependency
deriving DecidableEq

/-- Registry (registry.go lines 23-35); the Go maps are modelled as an
association list (Types) and a membership list (FilesToGenerate). -/
structure Registry where
  types : List (GoString × TypeInformation)
  filesToGenerate : List GoString
  tsImportRoot : GoString
  tsImportRootAlias : GoString

/-- IsFileToGenerate (registry.go lines 99-102). -/
def Registry.IsFileToGenerate (r : Registry) (name : GoString) : Bool :=
  name ∈ r.filesToGenerate

/-- Go map lookup `r.Types[typeName]` over the association list. -/
def lookupType : List (GoString × TypeInformation) → GoString → Option TypeInformation
  | [], _ => none
  | (k, v) :: rest, name => if k = name then some v else lookupType rest name

/-- Go map lookup `dependencies[identifier]` over the association list. -/
def findDep : List (GoString × Dependency) → GoString → Option Dependency
  | [], _ => none
  | (k, v) :: rest, name => if k = name then some v else findDep rest name

/-- The filesystem-facing collaborators (filepath.Glob and the working
directory behind filepath.Abs) enter the model as an oracle. -/
structure GlobFS where
  glob : GoString → Except GoString (List GoString)
  cwd : GoString

/-- Modelled from the spec: data.GetTSFileName is not under src/.  Per spec
section 4.2 step 3 and the section 8 end-to-end scenario (declaring file
a.proto yields the generated name whose stripped import path is ./a), the
generated output name is the declaring file with its extension replaced by
the output suffix .ts. -/
def GetTSFileName (fileName : GoString) : GoString :=
  fileName.take (fileName.length - (goExt fileName).length) ++ ".ts".data

/-- Modelled from the spec: data.GetModuleName is not under src/.  Spec
section 4.2 step 4 only requires an identifier derived deterministically from
the (package, declaring file) pair. -/
def GetModuleName (pkg file : GoString) : GoString :=
  pkg ++ file

/-- isExternalDependenciesOutsidePackage (registry.go lines 143-145):
`strings.Index(fqTypeName, "."+packageName) != 0 && strings.Index(fqTypeName, ".") == 0`. -/
def isExternalDependenciesOutsidePackage (fqTypeName packageName : GoString) : Bool :=
  (!(('.' :: packageName).isPrefixOf fqTypeName)) && (['.'].isPrefixOf fqTypeName)

/-- pkg/errors wrapping: `Wrapf(cause, msg)` renders as "msg: cause". -/
def wrapMsg (msg cause : GoString) : GoString := msg ++ ": ".data ++ cause

/-- The in-run branch of collectExternalDependenciesFromData (registry.go
lines 199-210): path relative to the current output directory; ToSlash and
FromSlash are identities on a '/'-separator platform. -/
def inRunSourceFile (base target : GoString) : Except RunError GoString :=
  match goRel (goDir base) target with
  | .error e =>
    .error (.err (wrapMsg ("error getting relative path between for ".data ++ base
      ++ ", ".data ++ target) e))
  | .ok sourceFile =>
    let slashSourceFile := sourceFile
    let slashSourceFile :=
      if ¬ (("../".data).isPrefixOf slashSourceFile) then "./".data ++ slashSourceFile
      else slashSourceFile
    .ok slashSourceFile

/-- The external (not-in-run) branch (registry.go lines 169-197): glob under
the import root, then alias substitution when an alias is configured, else a
path relative to the absolute current output directory.  `matches[0]` on an
empty match list is the Go runtime index panic; the more-than-one-match
warning has no semantic effect. -/
def externalSourceFile (r : Registry) (fs : GlobFS) (base : GoString)
    (tinfoFile : GoString) : Except RunError GoString :=
  match fs.glob (goJoin3 r.tsImportRoot "**".data tinfoFile) with
  | .error e =>
    .error (.err (wrapMsg ("error looking up real path for proto file ".data ++ tinfoFile) e))
  | .ok ms =>
    match ms.head? with
    | none => .error (.panic "index out of range".data)
    | some m =>
      let absoluteTsFileName := GetTSFileName m
      if r.tsImportRootAlias ≠ [] then
        .ok (goReplaceAll absoluteTsFileName r.tsImportRoot r.tsImportRootAlias)
      else
        let absBase := goAbs fs.cwd base
        match goRel (goDir absBase) absoluteTsFileName with
        | .error e =>
          .error (.err (wrapMsg ("error looking up relative path for source file ".data
            ++ absoluteTsFileName) e))
        | .ok rel => .ok rel

/-- The suffix-stripping step (registry.go lines 212-214):
`suffixIndex := strings.LastIndex(sourceFile, ".ts"); sourceFile[0:suffixIndex]`. -/
def stripTsSuffix (sourceFile : GoString) : Except RunError GoString :=
  goSliceTo sourceFile (goLastIndex sourceFile ".ts".data)

/-- Source-path computation for one not-yet-seen dependency (registry.go
lines 165-210). -/
def computeSourceFile (r : Registry) (fs : GlobFS) (base : GoString)
    (typeInfo : TypeInformation) : Except RunError GoString :=
  if r.IsFileToGenerate typeInfo.file = false then
    externalSourceFile r fs base typeInfo.file
  else
    inRunSourceFile base (GetTSFileName typeInfo.file)

/-- One Dependency record (registry.go lines 165-219): computed source path,
suffix stripping, module identifier. -/
def computeDependency (r : Registry) (fs : GlobFS) (base : GoString)
    (typeInfo : TypeInformation) : Except RunError Dependency := do
  let sourceFile ← computeSourceFile r fs base typeInfo
  let stripped ← stripTsSuffix sourceFile
  pure { moduleIdentifier := GetModuleName typeInfo.package typeInfo.file,
         sourceFile := stripped }

/-- The per-file dependency loop (registry.go lines 151-221); the Go map
`dependencies` keyed by package|file is an association list in insertion
order. -/
def collectDeps (r : Registry) (fs : GlobFS) (base : GoString) :
    List GoString → List (GoString × Dependency) →
    Except RunError (List (GoString × Dependency))
  | [], acc => .ok acc
  | typeName :: rest, acc =>
    match lookupType r.types typeName with
    | none => .error (.err ("cannot find type info for ".data ++ typeName ++ ", $v".data))
    | some typeInfo =>
      let identifier := typeInfo.package ++ "|".data ++ typeInfo.file
      match findDep acc identifier with
      | some _ => collectDeps r fs base rest acc
      | none =>
        match computeDependency r fs base typeInfo with
        | .error e => .error e
        | .ok dep => collectDeps r fs base rest (acc ++ [(identifier, dep)])

/-- Per-file body of collectExternalDependenciesFromData (registry.go lines
148-226): collect the deduplicated dependencies and append them to the
file's dependency list. -/
def collectForFile (r : Registry) (fs : GlobFS) (fileData : File) :
    Except RunError File := do
  let deps ← collectDeps r fs fileData.tsFileName fileData.externalDependingTypes []
  pure { fileData with dependencies := fileData.dependencies ++ deps.map Prod.snd }

/-- collectExternalDependenciesFromData (registry.go lines 147-229); the Go
map over files is iterated in list order (iteration order only affects which
error surfaces first).  The registry is read, never written, throughout. -/
def collectExternalDependenciesFromData (r : Registry) (fs : GlobFS) :
    List File → Except RunError (List File)
  | [] => .ok []
  | f :: rest => do
    let f' ← collectForFile r fs f
    let rest' ← collectExternalDependenciesFromData r fs rest
    pure (f' :: rest')

/-- The (package, declaring-file) pair a collected type name resolves to
(specification-side abbreviation for theorem statements). -/
def pairOf (r : Registry) (n : GoString) : GoString × GoString :=
  ((lookupType r.types n).map fun ti => (ti.package, ti.file)).getD ([], [])

/-- The package|file grouping key of registry.go line 157 (specification-side
abbreviation for theorem statements). -/
def identOf (r : Registry) (n : GoString) : GoString :=
  ((lookupType r.types n).map fun ti => ti.package ++ "|".data ++ ti.file).getD []

/-! ### Lemmas about LastIndex, Contains and the suffix strip -/

theorem lastIndexAux_short {sub s : GoString} (h : s.length < sub.length) :
    lastIndexAux sub s = none := by
  induction s with
  | nil =>
    have hne : sub ≠ [] := by
      intro e
      subst e
      simp at h
    simp [lastIndexAux, hne]
  | cons c rest ih =>
    have hcr : (c :: rest).length = rest.length + 1 := rfl
    have h' : rest.length < sub.length := by omega
    have hnp : ¬ sub.isPrefixOf (c :: rest) = true := by
      intro hp
      have hle := (List.isPrefixOf_iff_prefix.mp hp).length_le
      omega
    simp [lastIndexAux, ih h', hnp]

theorem lastIndexAux_append_self (sub : GoString) (hs : sub ≠ []) (t : GoString) :
    lastIndexAux sub (t ++ sub) = some t.length := by
  induction t with
  | nil =>
    cases sub with
    | nil => exact absurd rfl hs
    | cons c rest =>
      have hshort : lastIndexAux (c :: rest) rest = none :=
        lastIndexAux_short (by simp)
      have hp : (c :: rest).isPrefixOf (c :: rest) = true :=
        List.isPrefixOf_iff_prefix.mpr (List.prefix_refl _)
      simp [lastIndexAux, hshort, hp]
  | cons a t' ih =>
    simp [lastIndexAux, ih]

theorem stripTsSuffix_append (t : GoString) :
    stripTsSuffix (t ++ ".ts".data) = .ok t := by
  unfold stripTsSuffix goLastIndex
  rw [lastIndexAux_append_self ".ts".data (by decide) t]
  unfold goSliceTo
  have hbound : ¬ (((t.length : Nat) : Int) < 0 ∨ ((t ++ ".ts".data).length : Int) < ((t.length : Nat) : Int)) := by
    simp only [List.length_append]
    omega
  simp only [hbound, if_false, Int.toNat_natCast]
  rw [List.take_left]

theorem lastIndexAux_le {s sub : GoString} {i : Nat}
    (h : lastIndexAux sub s = some i) : i ≤ s.length := by
  induction s generalizing i with
  | nil =>
    by_cases he : sub = []
    · simp [lastIndexAux, he] at h
      omega
    · simp [lastIndexAux, he] at h
  | cons c rest ih =>
    simp only [lastIndexAux] at h
    cases haux : lastIndexAux sub rest with
    | some j =>
      rw [haux] at h
      simp only [Option.some.injEq] at h
      have := ih haux
      simp only [List.length_cons]
      omega
    | none =>
      rw [haux] at h
      by_cases hp : sub.isPrefixOf (c :: rest) = true
      · simp [hp] at h
        omega
      · simp [hp] at h

theorem goContains_false_lastIndexAux {s sub : GoString}
    (h : goContains s sub = false) : lastIndexAux sub s = none := by
  induction s with
  | nil =>
    rw [goContains] at h
    simp only [Bool.or_false] at h
    have hne : sub ≠ [] := by
      intro e
      subst e
      simp [List.isPrefixOf] at h
    simp [lastIndexAux, hne, h]
  | cons c rest ih =>
    rw [goContains] at h
    rcases Bool.or_eq_false_iff.mp h with ⟨h1, h2⟩
    simp [lastIndexAux, ih h2, h1]

theorem goContains_true_isSome {s sub : GoString}
    (h : goContains s sub = true) : (lastIndexAux sub s).isSome = true := by
  induction s with
  | nil =>
    rw [goContains] at h
    simp only [Bool.or_false] at h
    have : sub = [] := by
      have := List.isPrefixOf_iff_prefix.mp h
      exact List.prefix_nil.mp this
    simp [lastIndexAux, this]
  | cons c rest ih =>
    rw [goContains] at h
    cases haux : lastIndexAux sub rest with
    | some j => simp [lastIndexAux, haux]
    | none =>
      have h2 : goContains rest sub = false := by
        by_contra hc
        have : goContains rest sub = true := by
          cases hgc : goContains rest sub
          · exact absurd hgc hc
          · rfl
        have := ih this
        rw [haux] at this
        simp at this
      rw [h2] at h
      simp only [Bool.or_false] at h
      simp [lastIndexAux, haux, h]

/-! ### Claim theorems: C1, C10, C7 -/

/-- Claim C1, code evaluated at the failing input: the externality predicate
tests only the plain textual prefix "."+package, with no anchoring on the
following '.', so .pkg2.Foo is classified internal to package pkg (false)
exactly like .pkg.Foo, whereas the claim requires .pkg2.Foo to be external. -/
theorem isExternal_prefix_collision :
    isExternalDependenciesOutsidePackage ".pkg2.Foo".data "pkg".data = false ∧
    isExternalDependenciesOutsidePackage ".pkg.Foo".data "pkg".data = false ∧
    isExternalDependenciesOutsidePackage ".other.Foo".data "pkg".data = true := by
  decide

/-- Claim C10: the suffix-strip slice sourceFile[0:LastIndex(sourceFile,".ts")]
panics exactly when the computed path contains no ".ts" (LastIndex yields -1
and the slice bound is out of range); under the precondition that the path
contains ".ts" the panic branch is unreachable. -/
theorem stripTsSuffix_panic_iff_no_suffix (s : GoString) :
    (goContains s ".ts".data = false →
      stripTsSuffix s = .error (.panic "slice bounds out of range".data)) ∧
    (goContains s ".ts".data = true → ∃ t, stripTsSuffix s = .ok t) := by
  constructor
  · intro h
    have hnone := goContains_false_lastIndexAux h
    unfold stripTsSuffix goLastIndex
    rw [hnone]
    unfold goSliceTo
    norm_num
  · intro h
    have h1 := goContains_true_isSome h
    rcases Option.isSome_iff_exists.mp h1 with ⟨i, hi⟩
    have h2 := lastIndexAux_le hi
    refine ⟨s.take ((i : Int)).toNat, ?_⟩
    unfold stripTsSuffix goLastIndex
    rw [hi]
    unfold goSliceTo
    have hbound : ¬ ((i : Int) < 0 ∨ (s.length : Int) < (i : Int)) := by
      omega
    rw [if_neg hbound]

/-- Witness for C10 at concrete inputs on both sides of the precondition. -/
theorem stripTsSuffix_panic_iff_no_suffix_witness :
    (goContains "nosuffix".data ".ts".data = false ∧
      stripTsSuffix "nosuffix".data = .error (.panic "slice bounds out of range".data)) ∧
    (goContains "a.ts".data ".ts".data = true ∧ ∃ t, stripTsSuffix "a.ts".data = .ok t) :=
  ⟨⟨by decide, (stripTsSuffix_panic_iff_no_suffix "nosuffix".data).1 (by decide)⟩,
   ⟨by decide, (stripTsSuffix_panic_iff_no_suffix "a.ts".data).2 (by decide)⟩⟩

/-- Claim C7: on every path-computation branch, when the computed import path
ends in the output suffix ".ts", the stored Dependency.sourceFile is that
path with the suffix removed (LastIndex finds the terminal occurrence). -/
theorem strip_suffix_stored (r : Registry) (fs : GlobFS) (base : GoString)
    (typeInfo : TypeInformation) (t : GoString)
    (h : computeSourceFile r fs base typeInfo = .ok (t ++ ".ts".data)) :
    computeDependency r fs base typeInfo =
      .ok { moduleIdentifier := GetModuleName typeInfo.package typeInfo.file,
            sourceFile := t } := by
  unfold computeDependency
  rw [h]
  show (stripTsSuffix (t ++ ".ts".data)).bind _ = _
  rw [stripTsSuffix_append]
  rfl

/-- Witness for C7: an in-run dependency computes ./a.ts and stores ./a. -/
theorem strip_suffix_stored_witness :
    computeSourceFile ⟨[], ["a.proto".data], [], []⟩ ⟨fun _ => .ok [], []⟩ "b.ts".data
        ⟨[], [], "a.proto".data, [], [], 0, false, none, none⟩ =
      .ok ("./a".data ++ ".ts".data) ∧
    computeDependency ⟨[], ["a.proto".data], [], []⟩ ⟨fun _ => .ok [], []⟩ "b.ts".data
        ⟨[], [], "a.proto".data, [], [], 0, false, none, none⟩ =
      .ok { moduleIdentifier := GetModuleName [] "a.proto".data, sourceFile := "./a".data } :=
  ⟨by rfl,
   strip_suffix_stored ⟨[], ["a.proto".data], [], []⟩ ⟨fun _ => .ok [], []⟩ "b.ts".data
     ⟨[], [], "a.proto".data, [], [], 0, false, none, none⟩ "./a".data (by rfl)⟩

/-! ### Lemmas about ReplaceAll and the alias substitution -/

theorem goReplaceAllAux_no_occurrence {old : GoString} (new : GoString) {t : GoString}
    (h : goContains t old = false) :
    ∀ fuel, goReplaceAllAux old new fuel t = t := by
  induction t with
  | nil =>
    intro fuel
    cases fuel with
    | zero => rfl
    | succ n => rfl
  | cons c rest ih =>
    intro fuel
    rw [goContains] at h
    rcases Bool.or_eq_false_iff.mp h with ⟨h1, h2⟩
    cases fuel with
    | zero => rfl
    | succ n =>
      simp only [goReplaceAllAux, h1, Bool.false_eq_true, if_false]
      rw [ih h2]

theorem goReplaceAll_prefix_once {s old : GoString} (new : GoString)
    (hold : old ≠ [])
    (hpre : old.isPrefixOf s = true)
    (honce : goContains (s.drop old.length) old = false) :
    goReplaceAll s old new = new ++ s.drop old.length := by
  rcases List.isPrefixOf_iff_prefix.mp hpre with ⟨t, rfl⟩
  have hdrop : (old ++ t).drop old.length = t := List.drop_left old t
  rw [hdrop] at honce ⊢
  unfold goReplaceAll
  rw [if_neg hold]
  cases old with
  | nil => exact absurd rfl hold
  | cons o os =>
    have hlen : ((o :: os) ++ t).length = (os.length + t.length) + 1 := by
      simp only [List.length_append, List.length_cons]
      omega
    rw [hlen]
    show goReplaceAllAux (o :: os) new ((os.length + t.length) + 1) (o :: (os ++ t)) = _
    have hp : (o :: os).isPrefixOf (o :: (os ++ t)) = true :=
      List.isPrefixOf_iff_prefix.mpr ⟨t, rfl⟩
    simp only [goReplaceAllAux, hp, if_true]
    have hd : (o :: (os ++ t)).drop (o :: os).length = t := by
      show (o :: (os ++ t)).drop (os.length + 1) = t
      simp only [List.drop_succ_cons]
      exact List.drop_left os t
    rw [hd, goReplaceAllAux_no_occurrence new honce]

/-! ### Claim theorems: C6, C3 -/

/-- Claim C6 counterexample: import root /r, alias @g, glob match /r/r/f.proto,
so the resolved output path /r/r/f.ts begins with the root; ReplaceAll
rewrites both occurrences of /r, emitting @g@g/f.ts instead of the
prefix-substitution result @g/r/f.ts claimed. -/
theorem alias_substitution_counterexample :
    computeSourceFile ⟨[], [], "/r".data, "@g".data⟩
        ⟨fun _ => .ok ["/r/r/f.proto".data], []⟩ "b.ts".data
        ⟨[], [], "f.proto".data, [], [], 0, false, none, none⟩ =
      .ok "@g@g/f.ts".data ∧
    "@g@g/f.ts".data ≠ "@g".data ++ "/r/f.ts".data := by
  constructor
  · rfl
  · decide

/-- Claim C6 (amended): with a nonempty alias the external branch emits the
resolved path with every occurrence of the import root replaced by the alias;
whenever the root occurs only as the leading prefix (it does not reoccur in
the remainder), this coincides with replacing the prefix by the alias. -/
theorem alias_substitution_amended (r : Registry) (fs : GlobFS) (base m : GoString)
    (typeInfo : TypeInformation)
    (hnotgen : r.IsFileToGenerate typeInfo.file = false)
    (hglob : fs.glob (goJoin3 r.tsImportRoot "**".data typeInfo.file) = .ok [m])
    (halias : r.tsImportRootAlias ≠ [])
    (hroot : r.tsImportRoot ≠ [])
    (hpre : r.tsImportRoot.isPrefixOf (GetTSFileName m) = true)
    (honce : goContains ((GetTSFileName m).drop r.tsImportRoot.length) r.tsImportRoot = false) :
    computeSourceFile r fs base typeInfo =
      .ok (r.tsImportRootAlias ++ (GetTSFileName m).drop r.tsImportRoot.length) := by
  unfold computeSourceFile
  rw [if_pos hnotgen]
  unfold externalSourceFile
  rw [hglob]
  simp only [List.head?_cons]
  rw [if_pos halias]
  rw [goReplaceAll_prefix_once r.tsImportRootAlias hroot hpre honce]

/-- Witness for the amended C6: the spec's own example, root /abs/root and
alias @gen, with the single glob match /abs/root/sub/file.proto, emits
@gen/sub/file.ts. -/
theorem alias_substitution_amended_witness :
    computeSourceFile ⟨[], [], "/abs/root".data, "@gen".data⟩
        ⟨fun _ => .ok ["/abs/root/sub/file.proto".data], []⟩ "b.ts".data
        ⟨[], [], "file.proto".data, [], [], 0, false, none, none⟩ =
      .ok ("@gen".data ++ "/sub/file.ts".data) := by
  have h := alias_substitution_amended ⟨[], [], "/abs/root".data, "@gen".data⟩
    ⟨fun _ => .ok ["/abs/root/sub/file.proto".data], []⟩ "b.ts".data
    "/abs/root/sub/file.proto".data
    ⟨[], [], "file.proto".data, [], [], 0, false, none, none⟩
    (by decide) (by rfl) (by decide) (by decide) (by decide) (by decide)
  exact h

/-- Claim C3, code evaluated at the failing input: an external (not-in-run)
target whose glob search returns zero matches makes the resolver index
matches[0], a runtime index panic, not a wrapped error naming the current
and target files. -/
theorem glob_zero_matches_panics :
    collectExternalDependenciesFromData
        ⟨[(".p.T".data, ⟨".p.T".data, "p".data, "f.proto".data, [], [], 0, false, none, none⟩)],
         [], "/r".data, []⟩
        ⟨fun _ => .ok [], "/cwd".data⟩
        [⟨"b.ts".data, [".p.T".data], []⟩] =
      .error (.panic "index out of range".data) := by
  rfl

/-! ### Lemmas about the per-file dependency loop -/

theorem collectDeps_append (r : Registry) (fs : GlobFS) (base : GoString)
    (xs ys : List GoString) (acc : List (GoString × Dependency)) :
    collectDeps r fs base (xs ++ ys) acc =
      (collectDeps r fs base xs acc).bind (fun acc' => collectDeps r fs base ys acc') := by
  induction xs generalizing acc with
  | nil => rfl
  | cons n rest ih =>
    simp only [List.cons_append, collectDeps]
    cases lookupType r.types n with
    | none => rfl
    | some ti =>
      simp only
      cases findDep acc (ti.package ++ "|".data ++ ti.file) with
      | some d => exact ih acc
      | none =>
        simp only
        cases computeDependency r fs base ti with
        | error e => rfl
        | ok dep => exact ih _

theorem collectForFile_error_of_deps_error (r : Registry) (fs : GlobFS) (f : File)
    (e : RunError)
    (h : collectDeps r fs f.tsFileName f.externalDependingTypes [] = .error e) :
    collectForFile r fs f = .error e := by
  unfold collectForFile
  rw [h]
  rfl

theorem collect_error_after_prefix (r : Registry) (fs : GlobFS)
    (gs : List File) (f : File) (rest : List File) (e : RunError)
    (hpre : ∀ g ∈ gs, ∃ g', collectForFile r fs g = .ok g')
    (hf : collectForFile r fs f = .error e) :
    collectExternalDependenciesFromData r fs (gs ++ f :: rest) = .error e := by
  induction gs with
  | nil =>
    simp only [List.nil_append, collectExternalDependenciesFromData]
    rw [hf]
    rfl
  | cons g gs' ih =>
    rcases hpre g (by simp) with ⟨g', hg⟩
    simp only [List.cons_append, collectExternalDependenciesFromData]
    rw [hg]
    have htail := ih (fun x hx => hpre x (by simp [hx]))
    show (collectExternalDependenciesFromData r fs (gs' ++ f :: rest)).bind _ = _
    rw [htail]
    rfl

/-! ### Claim theorem: C8 -/

/-- Claim C8: when a collected external type name has no registry entry and
resolution reaches it (all files before it resolve, all names before it in
its file are processed successfully), the whole run aborts with a returned
error whose message contains the offending type name. -/
theorem missing_type_error (r : Registry) (fs : GlobFS)
    (gs rest : List File) (f : File) (ns₁ ns₂ : List GoString) (n : GoString)
    (acc : List (GoString × Dependency))
    (hnames : f.externalDependingTypes = ns₁ ++ n :: ns₂)
    (hpre : ∀ g ∈ gs, ∃ g', collectForFile r fs g = .ok g')
    (hok : collectDeps r fs f.tsFileName ns₁ [] = .ok acc)
    (hmiss : lookupType r.types n = none) :
    collectExternalDependenciesFromData r fs (gs ++ f :: rest) =
      .error (.err ("cannot find type info for ".data ++ n ++ ", $v".data)) := by
  have hdeps : collectDeps r fs f.tsFileName f.externalDependingTypes [] =
      .error (.err ("cannot find type info for ".data ++ n ++ ", $v".data)) := by
    rw [hnames, collectDeps_append, hok]
    show collectDeps r fs f.tsFileName (n :: ns₂) acc = _
    simp only [collectDeps, hmiss]
  exact collect_error_after_prefix r fs gs f rest _
    hpre (collectForFile_error_of_deps_error r fs f _ hdeps)

/-- Witness for C8: a single file depending on an unregistered type name
aborts the run with the wrapped message naming that type. -/
theorem missing_type_error_witness :
    collectExternalDependenciesFromData ⟨[], [], "/r".data, []⟩
        ⟨fun _ => .ok [], []⟩ [⟨"b.ts".data, [".p.Missing".data], []⟩] =
      .error (.err ("cannot find type info for ".data ++ ".p.Missing".data ++ ", $v".data)) := by
  exact missing_type_error ⟨[], [], "/r".data, []⟩ ⟨fun _ => .ok [], []⟩
    [] [] ⟨"b.ts".data, [".p.Missing".data], []⟩ [] [] ".p.Missing".data []
    rfl (by intro g hg; cases hg) rfl rfl

/-! ### Lemmas for the at-most-one-import invariant -/

theorem findDep_none_iff (acc : List (GoString × Dependency)) (k : GoString) :
    findDep acc k = none ↔ k ∉ acc.map Prod.fst := by
  induction acc with
  | nil => simp [findDep]
  | cons p rest ih =>
    cases p with
    | mk a d =>
      by_cases h : a = k
      · subst h
        have h1 : findDep ((a, d) :: rest) a = some d := by
          unfold findDep
          rw [if_pos rfl]
        rw [h1]
        constructor
        · intro hc
          exact Option.noConfusion hc
        · intro hnot
          exfalso
          exact hnot (by rw [List.map_cons]; exact List.mem_cons_self _ _)
      · simp only [findDep, if_neg h, List.map_cons, List.mem_cons]
        rw [ih]
        constructor
        · intro hnot hor
          rcases hor with h1 | h2
          · exact h h1.symm
          · exact hnot h2
        · intro hnot hmem
          exact hnot (Or.inr hmem)

theorem collectDeps_lookup_isSome (r : Registry) (fs : GlobFS) (base : GoString)
    (names : List GoString) (acc ds : List (GoString × Dependency))
    (hok : collectDeps r fs base names acc = .ok ds) :
    ∀ n ∈ names, (lookupType r.types n).isSome = true := by
  induction names generalizing acc with
  | nil => intro n hn; cases hn
  | cons m rest ih =>
    intro n hn
    simp only [collectDeps] at hok
    cases hlk : lookupType r.types m with
    | none => rw [hlk] at hok; cases hok
    | some ti =>
      rw [hlk] at hok
      simp only at hok
      rcases List.mem_cons.mp hn with h1 | h2
      · subst h1; simp [hlk]
      · cases hfd : findDep acc (ti.package ++ "|".data ++ ti.file) with
        | some d =>
          rw [hfd] at hok
          exact ih acc hok n h2
        | none =>
          rw [hfd] at hok
          cases hcd : computeDependency r fs base ti with
          | error e => rw [hcd] at hok; cases hok
          | ok dep =>
            rw [hcd] at hok
            exact ih _ hok n h2

theorem collectDeps_keys (r : Registry) (fs : GlobFS) (base : GoString)
    (names : List GoString) (acc ds : List (GoString × Dependency))
    (hok : collectDeps r fs base names acc = .ok ds)
    (hnd : (acc.map Prod.fst).Nodup) :
    (ds.map Prod.fst).Nodup ∧
      (ds.map Prod.fst).toFinset =
        (acc.map Prod.fst).toFinset ∪ (names.map (identOf r)).toFinset := by
  induction names generalizing acc with
  | nil =>
    simp only [collectDeps] at hok
    cases hok
    simp [hnd]
  | cons n rest ih =>
    simp only [collectDeps] at hok
    cases hlk : lookupType r.types n with
    | none => rw [hlk] at hok; cases hok
    | some ti =>
      rw [hlk] at hok
      simp only at hok
      have hident : identOf r n = ti.package ++ "|".data ++ ti.file := by
        simp [identOf, hlk]
      cases hfd : findDep acc (ti.package ++ "|".data ++ ti.file) with
      | some d =>
        rw [hfd] at hok
        obtain ⟨hnd', hset⟩ := ih acc hok hnd
        refine ⟨hnd', ?_⟩
        rw [hset]
        have hmem : (ti.package ++ "|".data ++ ti.file) ∈ acc.map Prod.fst := by
          by_contra hc
          rw [← findDep_none_iff] at hc
          rw [hc] at hfd
          cases hfd
        ext x
        simp only [List.map_cons, List.toFinset_cons, Finset.mem_union, Finset.mem_insert,
          List.mem_toFinset, hident]
        constructor
        · intro hx
          rcases hx with h1 | h2
          · exact Or.inl h1
          · exact Or.inr (Or.inr h2)
        · intro hx
          rcases hx with h1 | h2 | h3
          · exact Or.inl h1
          · subst h2; exact Or.inl hmem
          · exact Or.inr h3
      | none =>
        rw [hfd] at hok
        cases hcd : computeDependency r fs base ti with
        | error e => rw [hcd] at hok; cases hok
        | ok dep =>
          rw [hcd] at hok
          have hnotmem : (ti.package ++ "|".data ++ ti.file) ∉ acc.map Prod.fst :=
            (findDep_none_iff acc _).mp hfd
          have hnd2 : ((acc ++ [(ti.package ++ "|".data ++ ti.file, dep)]).map Prod.fst).Nodup := by
            rw [List.map_append]
            rw [List.nodup_append]
            refine ⟨hnd, by simp, ?_⟩
            intro x hx
            simp only [List.map_cons, List.map_nil, List.mem_singleton]
            intro he
            subst he
            exact hnotmem hx
          obtain ⟨hnd', hset⟩ := ih _ hok hnd2
          refine ⟨hnd', ?_⟩
          rw [hset]
          ext x
          simp only [List.map_append, List.map_cons, List.map_nil, List.toFinset_append,
            List.toFinset_cons, List.toFinset_nil, List.mem_toFinset, Finset.mem_union,
            Finset.mem_insert, Finset.not_mem_empty, or_false, hident]
          constructor
          · intro hx
            rcases hx with (h1 | h2) | h3
            · exact Or.inl h1
            · exact Or.inr (Or.inl h2)
            · exact Or.inr (Or.inr h3)
          · intro hx
            rcases hx with h1 | h2 | h3
            · exact Or.inl (Or.inl h1)
            · exact Or.inl (Or.inr h2)
            · exact Or.inr h3

theorem pipe_key_injective {p₁ f₁ p₂ f₂ : GoString}
    (h₁ : '|' ∉ p₁) (h₂ : '|' ∉ p₂)
    (h : p₁ ++ "|".data ++ f₁ = p₂ ++ "|".data ++ f₂) : p₁ = p₂ ∧ f₁ = f₂ := by
  have h' : p₁ ++ '|' :: f₁ = p₂ ++ '|' :: f₂ := by
    simpa [List.append_assoc] using h
  clear h
  induction p₁ generalizing p₂ with
  | nil =>
    cases p₂ with
    | nil => simpa using h'
    | cons c p₂' =>
      simp only [List.nil_append, List.cons_append, List.cons.injEq] at h'
      exfalso
      exact h₂ (by simp [← h'.1])
  | cons c p₁' ih =>
    cases p₂ with
    | nil =>
      simp only [List.cons_append, List.nil_append, List.cons.injEq] at h'
      exfalso
      exact h₁ (by simp [h'.1])
    | cons e p₂' =>
      simp only [List.cons_append, List.cons.injEq] at h'
      have hc₁ : '|' ∉ p₁' := fun hx => h₁ (by simp [hx])
      have hc₂ : '|' ∉ p₂' := fun hx => h₂ (by simp [hx])
      obtain ⟨hp, hf⟩ := ih hc₁ hc₂ h'.2
      exact ⟨by simp [h'.1, hp], hf⟩

theorem ident_card_eq_pair_card (r : Registry) (names : List GoString)
    (hlk : ∀ n ∈ names, (lookupType r.types n).isSome = true)
    (hpipe : ∀ n ∈ names, ∀ ti, lookupType r.types n = some ti → '|' ∉ ti.package) :
    (names.map (identOf r)).toFinset.card = (names.map (pairOf r)).toFinset.card := by
  have hmap : names.map (identOf r) =
      (names.map (pairOf r)).map (fun q => q.1 ++ "|".data ++ q.2) := by
    rw [List.map_map]
    refine List.map_congr_left ?_
    intro n hn
    rcases Option.isSome_iff_exists.mp (hlk n hn) with ⟨ti, hti⟩
    simp [identOf, pairOf, hti]
  rw [hmap]
  have himg : ((names.map (pairOf r)).map (fun q => q.1 ++ "|".data ++ q.2)).toFinset
      = (names.map (pairOf r)).toFinset.image (fun q => q.1 ++ "|".data ++ q.2) := by
    ext x
    simp
  rw [himg]
  refine Finset.card_image_of_injOn ?_
  intro a ha b hb hab
  have hpf : ∀ q ∈ (names.map (pairOf r)).toFinset, '|' ∉ q.1 := by
    intro q hq
    rcases List.mem_map.mp (List.mem_toFinset.mp hq) with ⟨n, hn, hqn⟩
    rcases Option.isSome_iff_exists.mp (hlk n hn) with ⟨ti, hti⟩
    have : q = (ti.package, ti.file) := by
      rw [← hqn]
      simp [pairOf, hti]
    rw [this]
    exact hpipe n hn ti hti
  obtain ⟨hp, hf⟩ := pipe_key_injective (hpf a ha) (hpf b hb) hab
  exact Prod.ext hp hf

/-! ### Claim theorem: C2 -/

/-- Claim C2: a successful per-file resolution appends exactly one Dependency
record per distinct (package, declaring-file) pair among the referenced
external type names, regardless of how many distinct types share a pair
(assuming, as for proto identifiers, that package names contain no pipe so
the package|file grouping key is injective). -/
theorem dedup_one_per_pair (r : Registry) (fs : GlobFS) (f out : File)
    (hok : collectForFile r fs f = .ok out)
    (hpipe : ∀ n ∈ f.externalDependingTypes, ∀ ti,
      lookupType r.types n = some ti → '|' ∉ ti.package) :
    out.dependencies.length = f.dependencies.length +
      (f.externalDependingTypes.map (pairOf r)).toFinset.card := by
  unfold collectForFile at hok
  cases hcd : collectDeps r fs f.tsFileName f.externalDependingTypes [] with
  | error e => rw [hcd] at hok; cases hok
  | ok ds =>
    rw [hcd] at hok
    have hout : out = { f with dependencies := f.dependencies ++ ds.map Prod.snd } := by
      cases hok
      rfl
    obtain ⟨hnd, hset⟩ := collectDeps_keys r fs f.tsFileName _ [] ds hcd (by simp)
    have hlk := collectDeps_lookup_isSome r fs f.tsFileName _ [] ds hcd
    have hlen : ds.length = (ds.map Prod.fst).toFinset.card := by
      rw [List.toFinset_card_of_nodup hnd, List.length_map]
    rw [hout]
    simp only [List.length_append, List.length_map]
    rw [hlen, hset]
    simp only [List.map_nil, List.toFinset_nil, Finset.empty_union]
    rw [ident_card_eq_pair_card r _ hlk hpipe]

/-- Witness for C2: two distinct types of the same (package, file) pair yield
a single appended Dependency. -/
theorem dedup_one_per_pair_witness :
    collectForFile
        ⟨[(".p.A".data, ⟨".p.A".data, "p".data, "x.proto".data, [], [], 0, false, none, none⟩),
          (".p.B".data, ⟨".p.B".data, "p".data, "x.proto".data, [], [], 0, false, none, none⟩)],
         ["x.proto".data], [], []⟩
        ⟨fun _ => .ok [], []⟩
        ⟨"b.ts".data, [".p.A".data, ".p.B".data], []⟩ =
      .ok ⟨"b.ts".data, [".p.A".data, ".p.B".data],
           [⟨"p".data ++ "x.proto".data, "./x".data⟩]⟩ ∧
    (⟨"b.ts".data, [".p.A".data, ".p.B".data],
      [⟨"p".data ++ "x.proto".data, "./x".data⟩]⟩ : File).dependencies.length =
      (⟨"b.ts".data, [".p.A".data, ".p.B".data], []⟩ : File).dependencies.length +
        ((([".p.A".data, ".p.B".data] : List GoString).map
          (pairOf ⟨[(".p.A".data, ⟨".p.A".data, "p".data, "x.proto".data, [], [], 0, false, none, none⟩),
                    (".p.B".data, ⟨".p.B".data, "p".data, "x.proto".data, [], [], 0, false, none, none⟩)],
                   ["x.proto".data], [], []⟩)).toFinset.card) := by
  constructor
  · rfl
  · exact dedup_one_per_pair
      ⟨[(".p.A".data, ⟨".p.A".data, "p".data, "x.proto".data, [], [], 0, false, none, none⟩),
        (".p.B".data, ⟨".p.B".data, "p".data, "x.proto".data, [], [], 0, false, none, none⟩)],
       ["x.proto".data], [], []⟩
      ⟨fun _ => .ok [], []⟩
      ⟨"b.ts".data, [".p.A".data, ".p.B".data], []⟩
      ⟨"b.ts".data, [".p.A".data, ".p.B".data],
       [⟨"p".data ++ "x.proto".data, "./x".data⟩]⟩
      (by rfl) (by decide)

/-! ### Claim theorems: C9, C5 -/

theorem collectForFile_frame (r : Registry) (fs : GlobFS) (f out : File)
    (h : collectForFile r fs f = .ok out) :
    out.tsFileName = f.tsFileName ∧
    out.externalDependingTypes = f.externalDependingTypes ∧
    ∃ ds, out.dependencies = f.dependencies ++ ds := by
  unfold collectForFile at h
  cases hd : collectDeps r fs f.tsFileName f.externalDependingTypes [] with
  | error e => rw [hd] at h; cases h
  | ok ds =>
    rw [hd] at h
    cases h
    exact ⟨rfl, rfl, ds.map Prod.snd, rfl⟩

/-- Claim C9: resolution is pure in the registry (the embedding only ever
reads it, mirroring a source that performs no writes) and, file by file, it
changes only the Dependencies field, by appending records; the generated-name
and external-type-name fields are untouched. -/
theorem resolver_frame (r : Registry) (fs : GlobFS) (files out : List File)
    (hok : collectExternalDependenciesFromData r fs files = .ok out) :
    List.Forall₂ (fun f g =>
      g.tsFileName = f.tsFileName ∧
      g.externalDependingTypes = f.externalDependingTypes ∧
      ∃ ds, g.dependencies = f.dependencies ++ ds) files out := by
  induction files generalizing out with
  | nil =>
    simp only [collectExternalDependenciesFromData] at hok
    cases hok
    exact List.Forall₂.nil
  | cons f rest ih =>
    simp only [collectExternalDependenciesFromData] at hok
    cases h1 : collectForFile r fs f with
    | error e => rw [h1] at hok; cases hok
    | ok f' =>
      rw [h1] at hok
      cases h2 : collectExternalDependenciesFromData r fs rest with
      | error e =>
        rw [h2] at hok
        cases hok
      | ok rest' =>
        rw [h2] at hok
        cases hok
        exact List.Forall₂.cons (collectForFile_frame r fs f f' h1) (ih rest' h2)

/-- Witness for C9 on a concrete run: one file, one external in-run type. -/
theorem resolver_frame_witness :
    List.Forall₂ (fun f g =>
      g.tsFileName = f.tsFileName ∧
      g.externalDependingTypes = f.externalDependingTypes ∧
      ∃ ds, g.dependencies = f.dependencies ++ ds)
      ([⟨"b.ts".data, [".p.A".data], []⟩] : List File)
      ([⟨"b.ts".data, [".p.A".data],
        [⟨"p".data ++ "a.proto".data, "./a".data⟩]⟩] : List File) :=
  resolver_frame
    ⟨[(".p.A".data, ⟨".p.A".data, "p".data, "a.proto".data, [], [], 0, false, none, none⟩)],
     ["a.proto".data], [], []⟩
    ⟨fun _ => .ok [], []⟩
    [⟨"b.ts".data, [".p.A".data], []⟩]
    [⟨"b.ts".data, [".p.A".data],
      [⟨"p".data ++ "a.proto".data, "./a".data⟩]⟩]
    (by rfl)

/-- Claim C5: the in-run import path is exactly the relative path from the
directory of the current file's generated name to the target's generated
name, prefixed with ./ precisely when it does not already start with ../;
consequently every in-run import specifier starts with ./ or ../. -/
theorem inRun_path_shape (base target sf : GoString)
    (hok : inRunSourceFile base target = .ok sf) :
    (∃ rel, goRel (goDir base) target = .ok rel ∧
      sf = if ("../".data).isPrefixOf rel then rel else "./".data ++ rel) ∧
    (("./".data).isPrefixOf sf = true ∨ ("../".data).isPrefixOf sf = true) := by
  unfold inRunSourceFile at hok
  cases h : goRel (goDir base) target with
  | error e => rw [h] at hok; cases hok
  | ok rel =>
    rw [h] at hok
    have hok' : (if ¬ (("../".data).isPrefixOf rel = true) then "./".data ++ rel else rel)
        = sf := by
      have h2 : (Except.ok (if ¬ (("../".data).isPrefixOf rel = true)
            then "./".data ++ rel else rel) : Except RunError GoString) = Except.ok sf := hok
      injection h2
    subst hok'
    by_cases hp : ("../".data).isPrefixOf rel = true
    · refine ⟨⟨rel, rfl, ?_⟩, Or.inr ?_⟩
      · rw [if_neg (not_not_intro hp), if_pos hp]
      · rw [if_neg (not_not_intro hp)]
        exact hp
    · refine ⟨⟨rel, rfl, ?_⟩, Or.inl ?_⟩
      · rw [if_pos hp, if_neg hp]
      · rw [if_pos hp]
        exact List.isPrefixOf_iff_prefix.mpr (List.prefix_append _ _)

/-- Witness for C5: base b.ts, target a.ts gives ./a.ts, which starts ./. -/
theorem inRun_path_shape_witness :
    (∃ rel, goRel (goDir "b.ts".data) "a.ts".data = .ok rel ∧
      "./a.ts".data = if ("../".data).isPrefixOf rel then rel else "./".data ++ rel) ∧
    (("./".data).isPrefixOf "./a.ts".data = true ∨
      ("../".data).isPrefixOf "./a.ts".data = true) :=
  inRun_path_shape "b.ts".data "a.ts".data "./a.ts".data (by rfl)

/-! ### Splitting and joining path components -/

theorem splitSlash_ne_nil (s : GoString) : splitSlash s ≠ [] := by
  cases s with
  | nil => simp [splitSlash]
  | cons c rest =>
    simp only [splitSlash]
    by_cases h : c = '/'
    · simp [h]
    · rw [if_neg h]
      cases splitSlash rest with
      | nil => simp
      | cons p ps => simp

theorem splitSlash_pieces_no_slash (s : GoString) :
    ∀ c ∈ splitSlash s, '/' ∉ c := by
  induction s with
  | nil =>
    intro c hc
    simp [splitSlash] at hc
    simp [hc]
  | cons a rest ih =>
    intro c hc
    simp only [splitSlash] at hc
    by_cases h : a = '/'
    · rw [if_pos h] at hc
      rcases List.mem_cons.mp hc with h1 | h2
      · simp [h1]
      · exact ih c h2
    · rw [if_neg h] at hc
      cases hs : splitSlash rest with
      | nil => exact absurd hs (splitSlash_ne_nil rest)
      | cons p ps =>
        rw [hs] at hc
        rcases List.mem_cons.mp hc with h1 | h2
        · subst h1
          intro hmem
          rcases List.mem_cons.mp hmem with h3 | h4
          · exact h h3.symm
          · exact ih p (by rw [hs]; exact List.mem_cons_self _ _) h4
        · exact ih c (by rw [hs]; exact List.mem_cons.mpr (Or.inr h2))

theorem splitSlash_cons_slash (rest : List Char) :
    splitSlash ('/' :: rest) = [] :: splitSlash rest := by
  simp [splitSlash]

theorem splitSlash_cons_ne (c : Char) (rest : List Char) (h : ¬ c = '/') :
    splitSlash (c :: rest) =
      match splitSlash rest with
      | [] => [[c]]
      | p :: ps => (c :: p) :: ps := by
  simp [splitSlash, h]

theorem getLast?_cons_ne_nil {α : Type} (x : α) (l : List α) (h : l ≠ []) :
    (x :: l).getLast? = l.getLast? := by
  cases l with
  | nil => exact absurd rfl h
  | cons y ys => exact List.getLast?_cons_cons

theorem splitSlash_append (a b : GoString) :
    splitSlash (a ++ '/' :: b) = splitSlash a ++ splitSlash b := by
  induction a with
  | nil =>
    rw [List.nil_append]
    rw [splitSlash_cons_slash]
    rfl
  | cons c a' ih =>
    by_cases h : c = '/'
    · subst h
      rw [List.cons_append, splitSlash_cons_slash, splitSlash_cons_slash, ih]
      rfl
    · rw [List.cons_append, splitSlash_cons_ne c _ h, splitSlash_cons_ne c _ h, ih]
      cases hs : splitSlash a' with
      | nil => exact absurd hs (splitSlash_ne_nil a')
      | cons p ps => rfl

theorem splitSlash_no_slash (c : GoString) (h : '/' ∉ c) : splitSlash c = [c] := by
  induction c with
  | nil => rfl
  | cons ch rest ih =>
    have h1 : ch ≠ '/' := fun he => h (by simp [he])
    have h2 : '/' ∉ rest := fun hm => h (by simp [hm])
    simp only [splitSlash, if_neg h1, ih h2]

theorem splitSlash_joinComps (cs : List GoString) (hne : cs ≠ [])
    (hs : ∀ c ∈ cs, '/' ∉ c) : splitSlash (joinComps cs) = cs := by
  induction cs with
  | nil => exact absurd rfl hne
  | cons c cs' ih =>
    cases cs' with
    | nil =>
      show splitSlash (joinComps [c]) = [c]
      exact splitSlash_no_slash c (hs c (by simp))
    | cons c2 cs'' =>
      show splitSlash (c ++ '/' :: joinComps (c2 :: cs'')) = c :: c2 :: cs''
      rw [splitSlash_append, splitSlash_no_slash c (hs c (by simp))]
      rw [ih (by simp) (fun x hx => hs x (List.mem_cons.mpr (Or.inr hx)))]
      rfl

theorem joinComps_shape (c : GoString) (cs : List GoString) :
    ∃ rest, joinComps (c :: cs) = c ++ rest := by
  cases cs with
  | nil => exact ⟨[], by simp [joinComps]⟩
  | cons c2 cs' => exact ⟨'/' :: joinComps (c2 :: cs'), rfl⟩

theorem joinComps_ends_with_last (cs : List GoString) (z : GoString)
    (h : cs.getLast? = some z) : ∃ w, joinComps cs = w ++ z := by
  induction cs with
  | nil => cases h
  | cons c cs' ih =>
    cases cs' with
    | nil =>
      simp only [List.getLast?_singleton, Option.some.injEq] at h
      exact ⟨[], by simp [joinComps, h]⟩
    | cons c2 cs'' =>
      have h' : (c2 :: cs'').getLast? = some z :=
        (@List.getLast?_cons_cons _ c c2 cs'').symm.trans h
      rcases ih h' with ⟨w, hw⟩
      refine ⟨c ++ '/' :: w, ?_⟩
      show c ++ '/' :: joinComps (c2 :: cs'') = (c ++ '/' :: w) ++ z
      rw [hw]
      simp

theorem isAbsL_append_of_ne_nil (d x : GoString) (hd : d ≠ []) :
    isAbsL (d ++ x) = isAbsL d := by
  cases d with
  | nil => exact absurd rfl hd
  | cons c cs => rfl

theorem splitSlash_getLast_suffix (sub : GoString) (hsub : '/' ∉ sub) :
    ∀ X : GoString, ∃ y, (splitSlash (X ++ sub)).getLast? = some (y ++ sub) := by
  intro X
  induction X with
  | nil =>
    refine ⟨[], ?_⟩
    rw [List.nil_append, splitSlash_no_slash sub hsub]
    rfl
  | cons c X' ih =>
    rcases ih with ⟨y, hy⟩
    rw [List.cons_append]
    by_cases h : c = '/'
    · subst h
      rw [splitSlash_cons_slash]
      refine ⟨y, ?_⟩
      rw [getLast?_cons_ne_nil _ _ (splitSlash_ne_nil _)]
      exact hy
    · rw [splitSlash_cons_ne c _ h]
      cases hs : splitSlash (X' ++ sub) with
      | nil => exact absurd hs (splitSlash_ne_nil _)
      | cons p ps =>
        rw [hs] at hy
        cases ps with
        | nil =>
          simp only [List.getLast?_singleton, Option.some.injEq] at hy
          refine ⟨c :: y, ?_⟩
          show [c :: p].getLast? = some ((c :: y) ++ sub)
          simp [hy]
        | cons p2 ps' =>
          refine ⟨y, ?_⟩
          show ((c :: p) :: p2 :: ps').getLast? = some (y ++ sub)
          rw [getLast?_cons_ne_nil (c :: p) (p2 :: ps') (by simp)]
          rw [← @List.getLast?_cons_cons _ p p2 ps']
          exact hy

theorem getLast?_filter (p : GoString → Bool) (l : List GoString) (z : GoString)
    (h : l.getLast? = some z) (hz : p z = true) :
    (l.filter p).getLast? = some z := by
  rcases List.getLast?_eq_some_iff.mp h with ⟨l', rfl⟩
  rw [List.filter_append]
  have hfz : List.filter p [z] = [z] := by simp [hz]
  rw [hfz]
  exact List.getLast?_concat _

/-! ### Invariants of the Clean element stack -/

/-- The shape invariant of a cleaned component stack: components are nonempty,
slash-free and not `.`; for a rooted path no `..` survives, for a relative
path the surviving `..` components form a leading run. -/
def IsCleanStack (abs : Bool) (cs : List GoString) : Prop :=
  (∀ c ∈ cs, c ≠ [] ∧ c ≠ ['.'] ∧ '/' ∉ c) ∧
  (if abs then dotdot ∉ cs
   else ∃ k ws, cs = List.replicate k dotdot ++ ws ∧ dotdot ∉ ws)

theorem IsCleanStack_nil (abs : Bool) : IsCleanStack abs [] := by
  refine ⟨by simp, ?_⟩
  cases abs
  · exact ⟨0, [], rfl, by simp⟩
  · simp

theorem getLast?_mem {α : Type} (l : List α) (x : α) (h : l.getLast? = some x) :
    x ∈ l := by
  rcases List.getLast?_eq_some_iff.mp h with ⟨l', rfl⟩
  simp

theorem replicate_getLast? (k : Nat) (d : GoString) :
    (List.replicate (k + 1) d).getLast? = some d := by
  rw [List.replicate_succ']
  exact List.getLast?_concat _

theorem cleanStep_preserves {abs : Bool} {st : List GoString} {c : GoString}
    (h : IsCleanStack abs st) (hc : '/' ∉ c) :
    IsCleanStack abs (cleanStep abs st c) := by
  obtain ⟨hshape, hdots⟩ := h
  unfold cleanStep
  by_cases h1 : c = [] ∨ c = ['.']
  · rw [if_pos h1]
    exact ⟨hshape, hdots⟩
  · rw [if_neg h1]
    have hcprops : c ≠ [] ∧ c ≠ ['.'] ∧ '/' ∉ c := by
      rcases not_or.mp h1 with ⟨ha, hb⟩
      exact ⟨ha, hb, hc⟩
    by_cases h2 : c = dotdot
    · rw [if_pos h2]
      by_cases h3 : st ≠ [] ∧ st.getLast? ≠ some dotdot
      · rw [if_pos h3]
        refine ⟨fun x hx => hshape x ((List.dropLast_sublist st).subset hx), ?_⟩
        cases abs with
        | true =>
          show dotdot ∉ st.dropLast
          have hdots' : dotdot ∉ st := hdots
          exact fun hx => hdots' ((List.dropLast_sublist st).subset hx)
        | false =>
          show ∃ k ws, st.dropLast = List.replicate k dotdot ++ ws ∧ dotdot ∉ ws
          have hdots' : ∃ k ws, st = List.replicate k dotdot ++ ws ∧ dotdot ∉ ws := hdots
          rcases hdots' with ⟨k, ws, hst, hws⟩
          have hwsne : ws ≠ [] := by
            intro hwe
            subst hwe
            rw [List.append_nil] at hst
            cases k with
            | zero => exact h3.1 (by rw [hst]; rfl)
            | succ j =>
              exact h3.2 (by rw [hst]; exact replicate_getLast? j dotdot)
          refine ⟨k, ws.dropLast, ?_, ?_⟩
          · rw [hst]
            exact List.dropLast_append_of_ne_nil _ hwsne
          · exact fun hx => hws ((List.dropLast_sublist ws).subset hx)
      · rw [if_neg h3]
        cases abs with
        | true =>
          rw [if_pos rfl]
          exact ⟨hshape, hdots⟩
        | false =>
          rw [if_neg (by simp)]
          have hdots' : ∃ k ws, st = List.replicate k dotdot ++ ws ∧ dotdot ∉ ws := hdots
          rcases hdots' with ⟨k, ws, hst, hws⟩
          refine ⟨?_, ?_⟩
          · intro x hx
            rcases List.mem_append.mp hx with hx1 | hx1
            · exact hshape x hx1
            · rw [List.mem_singleton] at hx1
              subst hx1
              exact ⟨by decide, by decide, by decide⟩
          · show ∃ k ws, st ++ [dotdot] = List.replicate k dotdot ++ ws ∧ dotdot ∉ ws
            rcases not_and_or.mp h3 with h4 | h4
            · have hst0 : st = [] := not_not.mp h4
              subst hst0
              exact ⟨1, [], by simp [List.replicate], by simp⟩
            · have hlast : st.getLast? = some dotdot := not_not.mp h4
              have hws0 : ws = [] := by
                by_contra hwne
                rw [hst] at hlast
                rw [List.getLast?_append_of_ne_nil _ hwne] at hlast
                exact hws (getLast?_mem ws dotdot hlast)
              subst hws0
              rw [List.append_nil] at hst
              refine ⟨k + 1, [], ?_, by simp⟩
              rw [List.append_nil, List.replicate_succ', hst]
    · rw [if_neg h2]
      refine ⟨?_, ?_⟩
      · intro x hx
        rcases List.mem_append.mp hx with hx1 | hx1
        · exact hshape x hx1
        · rw [List.mem_singleton] at hx1
          subst hx1
          exact hcprops
      · cases abs with
        | true =>
          show dotdot ∉ st ++ [c]
          have hdots' : dotdot ∉ st := hdots
          intro hx
          rcases List.mem_append.mp hx with hx1 | hx1
          · exact hdots' hx1
          · rw [List.mem_singleton] at hx1
            exact h2 hx1.symm
        | false =>
          show ∃ k ws, st ++ [c] = List.replicate k dotdot ++ ws ∧ dotdot ∉ ws
          have hdots' : ∃ k ws, st = List.replicate k dotdot ++ ws ∧ dotdot ∉ ws := hdots
          rcases hdots' with ⟨k, ws, hst, hws⟩
          refine ⟨k, ws ++ [c], by rw [hst, List.append_assoc], ?_⟩
          intro hx
          rcases List.mem_append.mp hx with hx1 | hx1
          · exact hws hx1
          · rw [List.mem_singleton] at hx1
            exact h2 hx1.symm

theorem foldl_cleanStep_clean {abs : Bool} (cs : List GoString)
    (hcs : ∀ c ∈ cs, '/' ∉ c) :
    ∀ st, IsCleanStack abs st → IsCleanStack abs (List.foldl (cleanStep abs) st cs) := by
  induction cs with
  | nil => intro st h; exact h
  | cons c cs' ih =>
    intro st h
    rw [List.foldl_cons]
    exact ih (fun x hx => hcs x (List.mem_cons.mpr (Or.inr hx)))
      _ (cleanStep_preserves h (hcs c (List.mem_cons_self _ _)))

theorem cleanComps_clean (abs : Bool) (s : GoString) :
    IsCleanStack abs (cleanComps abs (splitSlash s)) :=
  foldl_cleanStep_clean (splitSlash s) (splitSlash_pieces_no_slash s) [] (IsCleanStack_nil abs)

theorem all_eq_of_append_replicate (d : GoString) :
    ∀ (p : List GoString) (k : Nat) (ws rest : List GoString),
      p ++ d :: rest = List.replicate k d ++ ws → d ∉ ws → ∀ x ∈ p, x = d := by
  intro p
  induction p with
  | nil => intro k ws rest h hws x hx; cases hx
  | cons a p' ih =>
    intro k ws rest h hws x hx
    cases k with
    | zero =>
      rw [List.replicate_zero, List.nil_append] at h
      exfalso
      apply hws
      rw [← h]
      simp
    | succ j =>
      rw [List.replicate_succ, List.cons_append] at h
      rw [List.cons_append] at h
      injection h with h1 h2
      rcases List.mem_cons.mp hx with hx1 | hx1
      · rw [hx1, h1]
      · exact ih j ws rest h2 hws x hx1

theorem suffix_replicate_decomp (d : GoString) :
    ∀ (p bs : List GoString) (k : Nat) (ws : List GoString),
      p ++ bs = List.replicate k d ++ ws → d ∉ ws →
      ∃ k' ws', bs = List.replicate k' d ++ ws' ∧ d ∉ ws' := by
  intro p
  induction p with
  | nil =>
    intro bs k ws h hws
    rw [List.nil_append] at h
    exact ⟨k, ws, h, hws⟩
  | cons a p' ih =>
    intro bs k ws h hws
    cases k with
    | zero =>
      rw [List.replicate_zero, List.nil_append] at h
      refine ⟨0, bs, by simp, ?_⟩
      intro hmem
      apply hws
      rw [← h]
      rw [List.cons_append]
      exact List.mem_cons.mpr (Or.inr (List.mem_append.mpr (Or.inr hmem)))
    | succ j =>
      rw [List.replicate_succ, List.cons_append] at h
      rw [List.cons_append] at h
      injection h with h1 h2
      exact ih bs j ws h2 hws

theorem foldl_dots_cancel {abs : Bool} :
    ∀ (n : Nat) (ws p : List GoString), ws.length = n →
      (∀ x ∈ ws, x ≠ dotdot) →
      List.foldl (cleanStep abs) (p ++ ws) (List.replicate n dotdot) = p := by
  intro n
  induction n with
  | zero =>
    intro ws p hlen _
    rw [List.length_eq_zero.mp hlen]
    simp
  | succ m ih =>
    intro ws p hlen hnd
    have hwsne : ws ≠ [] := by
      intro he
      subst he
      simp at hlen
    rw [List.replicate_succ, List.foldl_cons]
    have hstep : cleanStep abs (p ++ ws) dotdot = p ++ ws.dropLast := by
      unfold cleanStep
      rw [if_neg (by decide)]
      rw [if_pos rfl]
      have hcond : p ++ ws ≠ [] ∧ (p ++ ws).getLast? ≠ some dotdot := by
        constructor
        · intro he
          exact hwsne (List.append_eq_nil.mp he).2
        · rw [List.getLast?_append_of_ne_nil _ hwsne]
          intro he
          rcases List.exists_cons_of_ne_nil hwsne with ⟨w, ws', rfl⟩
          exact hnd _ (getLast?_mem _ _ he) rfl
      rw [if_pos hcond]
      exact List.dropLast_append_of_ne_nil _ hwsne
    rw [hstep]
    exact ih ws.dropLast p
      (by rw [List.length_dropLast, hlen]; rfl)
      (fun x hx => hnd x ((List.dropLast_sublist ws).subset hx))

theorem foldl_cleanStep_fixpoint {abs : Bool} :
    ∀ (cs p : List GoString), IsCleanStack abs (p ++ cs) →
      List.foldl (cleanStep abs) p cs = p ++ cs := by
  intro cs
  induction cs with
  | nil => intro p _; simp
  | cons c cs' ih =>
    intro p h
    have hc : c ∈ p ++ c :: cs' := List.mem_append.mpr (Or.inr (List.mem_cons_self _ _))
    obtain ⟨hshape, hdots⟩ := h
    have hcp := hshape c hc
    have hstep : cleanStep abs p c = p ++ [c] := by
      unfold cleanStep
      rw [if_neg (by push_neg; exact ⟨hcp.1, hcp.2.1⟩)]
      by_cases h2 : c = dotdot
      · subst h2
        cases abs with
        | true =>
          exfalso
          have hdots' : dotdot ∉ p ++ dotdot :: cs' := hdots
          exact hdots' hc
        | false =>
          have hdots' : ∃ k ws, p ++ dotdot :: cs' = List.replicate k dotdot ++ ws ∧
              dotdot ∉ ws := hdots
          rcases hdots' with ⟨k, ws, heq, hws⟩
          have hall : ∀ x ∈ p, x = dotdot :=
            all_eq_of_append_replicate dotdot p k ws cs' heq hws
          by_cases h3 : p ≠ [] ∧ p.getLast? ≠ some dotdot
          · exfalso
            rcases List.exists_cons_of_ne_nil h3.1 with ⟨a, p', rfl⟩
            rcases List.exists_cons_of_ne_nil (l := a :: p') (by simp) with _
            have hlast : ∃ x, (a :: p').getLast? = some x ∧ x ∈ a :: p' := by
              rcases List.getLast?_eq_some_iff.mpr
                ⟨(a :: p').dropLast, (List.dropLast_append_getLast (by simp)).symm⟩ with h'
              exact ⟨(a :: p').getLast (by simp), h', List.getLast_mem _⟩
            rcases hlast with ⟨x, hx1, hx2⟩
            exact h3.2 (by rw [hx1, hall x hx2])
          · rw [if_neg h3]
            rfl
      · rw [if_neg h2]
    rw [List.foldl_cons, hstep]
    have h' : IsCleanStack abs ((p ++ [c]) ++ cs') := by
      rw [List.append_assoc]
      exact ⟨hshape, hdots⟩
    rw [ih (p ++ [c]) h']
    simp

theorem stripCommon_nil_left (bs : List GoString) : stripCommon [] bs = ([], bs) := by
  cases bs <;> simp [stripCommon]

theorem stripCommon_nil_right (as : List GoString) : stripCommon as [] = (as, []) := by
  cases as <;> simp [stripCommon]

theorem stripCommon_cons_eq (a : GoString) (as bs : List GoString) :
    stripCommon (a :: as) (a :: bs) = stripCommon as bs := by
  simp [stripCommon]

theorem stripCommon_cons_ne (a b : GoString) (as bs : List GoString) (h : ¬ a = b) :
    stripCommon (a :: as) (b :: bs) = (a :: as, b :: bs) := by
  simp [stripCommon, h]

theorem stripCommon_decomp :
    ∀ (as bs : List GoString), ∃ p,
      as = p ++ (stripCommon as bs).1 ∧ bs = p ++ (stripCommon as bs).2 := by
  intro as
  induction as with
  | nil =>
    intro bs
    exact ⟨[], by rw [stripCommon_nil_left]; rfl, by rw [stripCommon_nil_left]; rfl⟩
  | cons a as' ih =>
    intro bs
    cases bs with
    | nil =>
      exact ⟨[], by rw [stripCommon_nil_right]; rfl, by rw [stripCommon_nil_right]; rfl⟩
    | cons b bs' =>
      by_cases h : a = b
      · subst h
        rcases ih bs' with ⟨p, h1, h2⟩
        refine ⟨a :: p, ?_, ?_⟩
        · rw [stripCommon_cons_eq, List.cons_append, ← h1]
        · rw [stripCommon_cons_eq, List.cons_append, ← h2]
      · exact ⟨[], by rw [stripCommon_cons_ne a b as' bs' h]; rfl,
          by rw [stripCommon_cons_ne a b as' bs' h]; rfl⟩

/-! ### Rendering cleaned components back to strings, and re-parsing them -/

theorem goClean_ne_nil (s : GoString) : goClean s ≠ [] := by
  unfold goClean renderPath
  have hclean := cleanComps_clean (isAbsL s) s
  cases hcs : cleanComps (isAbsL s) (splitSlash s) with
  | nil =>
    rw [if_pos rfl]
    cases isAbsL s <;> decide
  | cons c cs' =>
    rw [if_neg (by simp)]
    rcases joinComps_shape c cs' with ⟨rest, hjc⟩
    have hcne : c ≠ [] := by
      rw [hcs] at hclean
      exact (hclean.1 c (List.mem_cons_self _ _)).1
    rw [hjc]
    cases isAbsL s with
    | true =>
      show ['/'] ++ (c ++ rest) ≠ []
      simp
    | false =>
      show [] ++ (c ++ rest) ≠ []
      simp [hcne]

theorem goDir_ne_nil (s : GoString) : goDir s ≠ [] := goClean_ne_nil _

theorem isAbsL_renderPath (abs : Bool) (cs : List GoString)
    (h : IsCleanStack abs cs) : isAbsL (renderPath abs cs) = abs := by
  unfold renderPath
  cases hcs : cs with
  | nil =>
    rw [if_pos rfl]
    cases abs <;> rfl
  | cons c cs' =>
    rw [if_neg (by simp)]
    rcases joinComps_shape c cs' with ⟨rest, hjc⟩
    rw [hjc]
    rw [hcs] at h
    obtain ⟨hne, _, hns⟩ := h.1 c (List.mem_cons_self _ _)
    rcases List.exists_cons_of_ne_nil hne with ⟨ch, ct, rfl⟩
    have hch : ch ≠ '/' := fun he => hns (by simp [he])
    cases abs with
    | true => rfl
    | false =>
      show isAbsL ([] ++ ((ch :: ct) ++ rest)) = false
      rw [List.nil_append, List.cons_append]
      simp [isAbsL, hch]

theorem filter_ne_nil_eq_self (cs : List GoString) (h : ∀ c ∈ cs, c ≠ []) :
    cs.filter (fun c => c ≠ []) = cs := by
  rw [List.filter_eq_self]
  intro a ha
  simp [h a ha]

theorem splitComps_renderPath (abs : Bool) (cs : List GoString)
    (h : IsCleanStack abs cs) :
    splitComps (renderPath abs cs) =
      if abs = false ∧ cs = [] then [['.']] else cs := by
  unfold renderPath
  cases hcs : cs with
  | nil =>
    rw [if_pos rfl]
    cases abs <;> decide
  | cons c cs' =>
    rw [if_neg (by simp)]
    rw [hcs] at h
    have hns : ∀ x ∈ c :: cs', '/' ∉ x := fun x hx => (h.1 x hx).2.2
    have hne : ∀ x ∈ c :: cs', x ≠ [] := fun x hx => (h.1 x hx).1
    have hjc := splitSlash_joinComps (c :: cs') (by simp) hns
    have hrhs : ¬ (abs = false ∧ c :: cs' = []) := fun hx => List.cons_ne_nil c cs' hx.2
    rw [if_neg hrhs]
    cases abs with
    | true =>
      show splitComps ('/' :: joinComps (c :: cs')) = c :: cs'
      unfold splitComps
      rw [splitSlash_cons_slash, hjc]
      have hstep : (([] : GoString) :: c :: cs').filter (fun x => x ≠ []) =
          (c :: cs').filter (fun x => x ≠ []) := by
        simp
      rw [hstep]
      exact filter_ne_nil_eq_self _ hne
    | false =>
      show splitComps ([] ++ joinComps (c :: cs')) = c :: cs'
      rw [List.nil_append]
      unfold splitComps
      rw [hjc]
      exact filter_ne_nil_eq_self _ hne

theorem goClean_eq_dot_iff (s : GoString) :
    goClean s = ['.'] ↔
      (isAbsL s = false ∧ cleanComps (isAbsL s) (splitSlash s) = []) := by
  constructor
  · intro h
    have hclean := cleanComps_clean (isAbsL s) s
    unfold goClean renderPath at h
    cases hcs : cleanComps (isAbsL s) (splitSlash s) with
    | nil =>
      rw [hcs, if_pos rfl] at h
      cases habs : isAbsL s with
      | true => rw [habs] at h; exact absurd h (by decide)
      | false => exact ⟨rfl, rfl⟩
    | cons c cs' =>
      exfalso
      rw [hcs, if_neg (by simp)] at h
      rw [hcs] at hclean
      obtain ⟨hne, hnd, hns⟩ := hclean.1 c (List.mem_cons_self _ _)
      rcases joinComps_shape c cs' with ⟨rest, hjc⟩
      cases habs : isAbsL s with
      | true =>
        rw [habs] at h
        have h' : ('/' : Char) :: joinComps (c :: cs') = ['.'] := h
        injection h' with ha _
        exact absurd ha (by decide)
      | false =>
        rw [habs] at h
        have h' : joinComps (c :: cs') = ['.'] := h
        rw [hjc] at h'
        rcases List.exists_cons_of_ne_nil hne with ⟨ch, ct, rfl⟩
        rw [List.cons_append] at h'
        injection h' with h1 h2
        subst h1
        rcases List.append_eq_nil.mp h2 with ⟨hct, _⟩
        subst hct
        exact hnd rfl
  · intro h'
    obtain ⟨h1, h2⟩ := h'
    rw [h1] at h2
    unfold goClean
    rw [h1, h2]
    decide

theorem isAbsL_goClean (s : GoString) : isAbsL (goClean s) = isAbsL s :=
  isAbsL_renderPath (isAbsL s) _ (cleanComps_clean (isAbsL s) s)

theorem splitComps_goClean (s : GoString) :
    splitComps (goClean s) =
      if isAbsL s = false ∧ cleanComps (isAbsL s) (splitSlash s) = [] then [['.']]
      else cleanComps (isAbsL s) (splitSlash s) := by
  unfold goClean
  exact splitComps_renderPath (isAbsL s) _ (cleanComps_clean (isAbsL s) s)

/-! ### Joining a relative step onto a base path -/

theorem goClean_append (d r : GoString) (hd : d ≠ []) :
    goClean (d ++ '/' :: r) =
      renderPath (isAbsL d)
        (List.foldl (cleanStep (isAbsL d))
          (cleanComps (isAbsL d) (splitSlash d)) (splitSlash r)) := by
  unfold goClean
  rw [isAbsL_append_of_ne_nil d ('/' :: r) hd, splitSlash_append]
  unfold cleanComps
  rw [List.foldl_append]

theorem cleanStep_dot (abs : Bool) (st : List GoString) :
    cleanStep abs st ['.'] = st := by
  unfold cleanStep
  rw [if_pos (Or.inr rfl)]

theorem clean_append_dot (d : GoString) (hd : d ≠ []) :
    goClean (d ++ '/' :: ['.']) = goClean d := by
  rw [goClean_append d ['.'] hd]
  have hsp : splitSlash ['.'] = [['.']] := rfl
  rw [hsp, List.foldl_cons, cleanStep_dot]
  rfl

theorem clean_insert_dot (d r : GoString) (hd : d ≠ []) :
    goClean (d ++ '/' :: ('.' :: '/' :: r)) = goClean (d ++ '/' :: r) := by
  rw [goClean_append d _ hd, goClean_append d r hd]
  have hsp : splitSlash ('.' :: '/' :: r) = ['.'] :: splitSlash r := by
    rw [splitSlash_cons_ne '.' ('/' :: r) (by decide), splitSlash_cons_slash]
  rw [hsp, List.foldl_cons, cleanStep_dot]

/-! ### The shape of a successful Rel result -/

theorem goRel_ok_inv (d t r : GoString) (h : goRel d t = .ok r) :
    (goClean t = goClean d ∧ r = ['.']) ∨
    (¬ goClean t = goClean d ∧
      isAbsL (relBase d) = isAbsL (goClean t) ∧
      (relRemainder d t).1.head? ≠ some dotdot ∧
      r = joinComps (List.replicate (relRemainder d t).1.length dotdot ++
        (relRemainder d t).2)) := by
  unfold goRel at h
  by_cases h1 : goClean t = goClean d
  · rw [if_pos h1] at h
    injection h with hr
    exact Or.inl ⟨h1, hr.symm⟩
  · rw [if_neg h1] at h
    by_cases h2 : isAbsL (relBase d) ≠ isAbsL (goClean t)
    · rw [if_pos h2] at h
      cases h
    · rw [if_neg h2] at h
      by_cases h3 : (relRemainder d t).1.head? = some dotdot
      · rw [if_pos h3] at h
        cases h
      · rw [if_neg h3] at h
        injection h with hr
        exact Or.inr ⟨h1, not_ne_iff.mp h2, h3, hr.symm⟩

theorem goRel_shape (d t r : GoString) (h : goRel d t = .ok r) :
    r = ['.'] ∨ (∃ k, r = joinComps (List.replicate k dotdot)) ∨
      (∃ w y, (splitComps (goClean t)).getLast? = some y ∧ r = w ++ y) := by
  rcases goRel_ok_inv d t r h with ⟨_, hr⟩ | ⟨_, _, _, hr⟩
  · exact Or.inl hr
  · rcases stripCommon_decomp (splitComps (relBase d)) (splitComps (goClean t))
      with ⟨p, hC, hts⟩
    cases hts2 : (relRemainder d t).2 with
    | nil =>
      refine Or.inr (Or.inl ⟨(relRemainder d t).1.length, ?_⟩)
      rw [hr, hts2, List.append_nil]
    | cons z zs =>
      have hylast : (z :: zs).getLast? = some ((z :: zs).getLast (by simp)) := by
        simp [List.getLast?_eq_getLast]
      have hts' : splitComps (goClean t) = p ++ (relRemainder d t).2 := hts
      have htslast : (splitComps (goClean t)).getLast? =
          some ((z :: zs).getLast (by simp)) := by
        rw [hts', hts2, List.getLast?_append_of_ne_nil _ (by simp)]
        exact hylast
      have hrs : (List.replicate (relRemainder d t).1.length dotdot ++
          (relRemainder d t).2).getLast? = some ((z :: zs).getLast (by simp)) := by
        rw [hts2, List.getLast?_append_of_ne_nil _ (by simp)]
        exact hylast
      rcases joinComps_ends_with_last _ _ hrs with ⟨w, hw⟩
      exact Or.inr (Or.inr ⟨w, (z :: zs).getLast (by simp), htslast, by rw [hr, hw]⟩)

/-! ### Correctness of Rel: joining the result back onto the base -/

theorem rel_correct (d t r : GoString) (hd : d ≠ [])
    (h : goRel d t = .ok r) : goClean (d ++ '/' :: r) = goClean t := by
  rcases goRel_ok_inv d t r h with ⟨heq, hr⟩ | ⟨hne, habs, hhead, hr⟩
  · subst hr
    rw [heq]
    exact clean_append_dot d hd
  · have hCstack := cleanComps_clean (isAbsL d) d
    have hTstack := cleanComps_clean (isAbsL t) t
    have hbs : splitComps (relBase d) = cleanComps (isAbsL d) (splitSlash d) := by
      unfold relBase
      by_cases hdot : goClean d = ['.']
      · rw [if_pos hdot]
        have hC0 := (goClean_eq_dot_iff d).mp hdot
        rw [hC0.2]
        rfl
      · rw [if_neg hdot]
        rw [splitComps_goClean d]
        rw [if_neg (fun hx => hdot ((goClean_eq_dot_iff d).mpr ⟨hx.1, hx.2⟩))]
    have habsb : isAbsL (relBase d) = isAbsL d := by
      unfold relBase
      by_cases hdot : goClean d = ['.']
      · rw [if_pos hdot]
        have hC0 := (goClean_eq_dot_iff d).mp hdot
        rw [hC0.1]
        rfl
      · rw [if_neg hdot]
        exact isAbsL_goClean d
    have habs' : isAbsL d = isAbsL t := by
      rw [← habsb, habs, isAbsL_goClean t]
    rcases stripCommon_decomp (splitComps (relBase d)) (splitComps (goClean t))
      with ⟨p, hCp, htsp⟩
    have hCp' : cleanComps (isAbsL d) (splitSlash d) = p ++ (relRemainder d t).1 := by
      rw [← hbs]
      exact hCp
    have htsp' : splitComps (goClean t) = p ++ (relRemainder d t).2 := htsp
    have htprops : ∀ x ∈ splitComps (goClean t), x ≠ [] ∧ '/' ∉ x := by
      intro x hx
      rw [splitComps_goClean t] at hx
      by_cases hcase : isAbsL t = false ∧ cleanComps (isAbsL t) (splitSlash t) = []
      · rw [if_pos hcase] at hx
        rw [List.mem_singleton] at hx
        subst hx
        exact ⟨by decide, by decide⟩
      · rw [if_neg hcase] at hx
        exact ⟨(hTstack.1 x hx).1, (hTstack.1 x hx).2.2⟩
    have hbsnd : ∀ x ∈ (relRemainder d t).1, x ≠ dotdot := by
      cases habsd : isAbsL d with
      | true =>
        intro x hx he
        subst he
        have hdd : dotdot ∉ cleanComps (isAbsL d) (splitSlash d) := by
          have h2 := hCstack.2
          rw [if_pos habsd] at h2
          exact h2
        exact hdd (by rw [hCp']; exact List.mem_append.mpr (Or.inr hx))
      | false =>
        have hdots : ∃ k ws, cleanComps (isAbsL d) (splitSlash d) =
            List.replicate k dotdot ++ ws ∧ dotdot ∉ ws := by
          have h2 := hCstack.2
          rw [if_neg (by simp [habsd])] at h2
          exact h2
        rcases hdots with ⟨k, ws, hk, hws⟩
        rcases suffix_replicate_decomp dotdot p (relRemainder d t).1 k ws
          (by rw [← hCp']; exact hk) hws with ⟨k', ws', hbs2, hws'⟩
        cases k' with
        | zero =>
          rw [List.replicate_zero, List.nil_append] at hbs2
          intro x hx he
          subst he
          rw [hbs2] at hx
          exact hws' hx
        | succ j =>
          exfalso
          apply hhead
          rw [hbs2, List.replicate_succ, List.cons_append]
          rfl
    subst hr
    by_cases hrs : List.replicate (relRemainder d t).1.length dotdot ++
        (relRemainder d t).2 = []
    · exfalso
      rcases List.append_eq_nil.mp hrs with ⟨hrep, hts20⟩
      have hlen0 : (relRemainder d t).1.length = 0 := by
        have h2 := congrArg List.length hrep
        simpa using h2
      have hbs10 : (relRemainder d t).1 = [] := List.length_eq_zero.mp hlen0
      have hCts : cleanComps (isAbsL d) (splitSlash d) = splitComps (goClean t) := by
        rw [hCp', htsp', hbs10, hts20]
      rw [splitComps_goClean t] at hCts
      by_cases hcase : isAbsL t = false ∧ cleanComps (isAbsL t) (splitSlash t) = []
      · rw [if_pos hcase] at hCts
        have hmem : (['.'] : GoString) ∈ cleanComps (isAbsL d) (splitSlash d) := by
          rw [hCts]
          simp
        exact (hCstack.1 _ hmem).2.1 rfl
      · rw [if_neg hcase] at hCts
        apply hne
        unfold goClean
        rw [hCts, habs']
    · have hpieces : ∀ c ∈ List.replicate (relRemainder d t).1.length dotdot ++
          (relRemainder d t).2, '/' ∉ c := by
        intro c hc
        rcases List.mem_append.mp hc with hc1 | hc1
        · rw [List.eq_of_mem_replicate hc1]
          decide
        · exact (htprops c (by rw [htsp']; exact List.mem_append.mpr (Or.inr hc1))).2
      have hsplit := splitSlash_joinComps _ hrs hpieces
      rw [goClean_append d _ hd, hsplit, List.foldl_append]
      have hcancel : List.foldl (cleanStep (isAbsL d))
          (cleanComps (isAbsL d) (splitSlash d))
          (List.replicate (relRemainder d t).1.length dotdot) = p := by
        rw [hCp']
        exact foldl_dots_cancel (relRemainder d t).1.length (relRemainder d t).1 p rfl hbsnd
      rw [hcancel]
      rw [splitComps_goClean t] at htsp'
      by_cases hcase : isAbsL t = false ∧ cleanComps (isAbsL t) (splitSlash t) = []
      · rw [if_pos hcase] at htsp'
        cases hp : p with
        | cons x p' =>
          exfalso
          have hx : x ∈ cleanComps (isAbsL d) (splitSlash d) := by
            rw [hCp', hp, List.cons_append]
            exact List.mem_cons_self _ _
          rw [hp, List.cons_append] at htsp'
          injection htsp' with h1 _
          exact (hCstack.1 x hx).2.1 h1.symm
        | nil =>
          rw [hp, List.nil_append] at htsp'
          rw [← htsp']
          rw [List.foldl_cons, cleanStep_dot]
          show renderPath (isAbsL d) [] = goClean t
          unfold goClean
          rw [hcase.2, habs']
      · rw [if_neg hcase] at htsp'
        have hfix : List.foldl (cleanStep (isAbsL d)) p (relRemainder d t).2 =
            p ++ (relRemainder d t).2 := by
          apply foldl_cleanStep_fixpoint
          rw [← htsp', habs']
          exact hTstack
        rw [hfix, ← htsp']
        unfold goClean
        rw [habs']

/-! ### Helpers for the round-trip claim -/

theorem no_t_not_ts_isPrefixOf {s : GoString} (h : ('t' : Char) ∉ s) :
    ¬ (".ts".data).isPrefixOf s = true := by
  intro hp
  rcases List.isPrefixOf_iff_prefix.mp hp with ⟨u, rfl⟩
  exact h (List.mem_append.mpr (Or.inl (by decide)))

theorem no_t_no_contains {s : GoString} (h : ('t' : Char) ∉ s) :
    goContains s ".ts".data = false := by
  induction s with
  | nil => rfl
  | cons c rest ih =>
    rw [goContains]
    have h1 : (".ts".data).isPrefixOf (c :: rest) = false := by
      cases hb : (".ts".data).isPrefixOf (c :: rest)
      · rfl
      · exact absurd hb (no_t_not_ts_isPrefixOf h)
    have h2 : goContains rest ".ts".data = false :=
      ih (fun hm => h (List.mem_cons.mpr (Or.inr hm)))
    rw [h1, h2]
    rfl

theorem stripTsSuffix_err_of_no_t {s : GoString} (h : ('t' : Char) ∉ s) :
    stripTsSuffix s = .error (.panic "slice bounds out of range".data) := by
  have hc : goContains s ".ts".data = false := no_t_no_contains h
  have hn := goContains_false_lastIndexAux hc
  unfold stripTsSuffix goLastIndex
  rw [hn]
  unfold goSliceTo
  norm_num

theorem t_not_in_join_dots : ∀ k, ('t' : Char) ∉ joinComps (List.replicate k dotdot) := by
  intro k
  induction k with
  | zero => simp [joinComps]
  | succ j ih =>
    rw [List.replicate_succ]
    cases hj : List.replicate j dotdot with
    | nil =>
      show ('t' : Char) ∉ joinComps [dotdot]
      decide
    | cons a l =>
      show ('t' : Char) ∉ joinComps (dotdot :: a :: l)
      rw [show joinComps (dotdot :: a :: l) = dotdot ++ '/' :: joinComps (a :: l) from rfl]
      intro hm
      rcases List.mem_append.mp hm with h1 | h1
      · exact absurd h1 (by decide)
      · rcases List.mem_cons.mp h1 with h2 | h2
        · exact absurd h2 (by decide)
        · rw [hj] at ih
          exact ih h2

theorem computeDependency_ok_inv (r : Registry) (fs : GlobFS) (base : GoString)
    (typeInfo : TypeInformation) (dep : Dependency)
    (h : computeDependency r fs base typeInfo = .ok dep) :
    ∃ sf, computeSourceFile r fs base typeInfo = .ok sf ∧
      stripTsSuffix sf = .ok dep.sourceFile ∧
      dep.moduleIdentifier = GetModuleName typeInfo.package typeInfo.file := by
  unfold computeDependency at h
  cases hsf : computeSourceFile r fs base typeInfo with
  | error e =>
    rw [hsf] at h
    cases h
  | ok sf =>
    rw [hsf] at h
    have h2 : Bind.bind (stripTsSuffix sf)
        (fun stripped => (pure (Dependency.mk
          (GetModuleName typeInfo.package typeInfo.file) stripped) :
            Except RunError Dependency)) = .ok dep := h
    cases hst : stripTsSuffix sf with
    | error e =>
      rw [hst] at h2
      have h3 : (Except.error e : Except RunError Dependency) = .ok dep := h2
      cases h3
    | ok v =>
      rw [hst] at h2
      have h3 : (Except.ok (Dependency.mk
          (GetModuleName typeInfo.package typeInfo.file) v) :
            Except RunError Dependency) = .ok dep := h2
      injection h3 with h4
      subst h4
      exact ⟨sf, rfl, hst, rfl⟩

theorem inRunSourceFile_ok_inv (base target sf : GoString)
    (h : inRunSourceFile base target = .ok sf) :
    ∃ rel, goRel (goDir base) target = .ok rel ∧
      sf = (if ¬ (("../".data).isPrefixOf rel = true) then "./".data ++ rel else rel) := by
  unfold inRunSourceFile at h
  cases hr : goRel (goDir base) target with
  | error e =>
    rw [hr] at h
    cases h
  | ok rel =>
    rw [hr] at h
    have h2 : (Except.ok (if ¬ (("../".data).isPrefixOf rel = true)
        then "./".data ++ rel else rel) : Except RunError GoString) = .ok sf := h
    injection h2 with h3
    exact ⟨rel, rfl, h3.symm⟩

/-! ### Claim theorem: C4 -/

set_option maxHeartbeats 1000000 in
/-- Claim C4: for an in-run target, resolving the stored Dependency.sourceFile
(with the stripped .ts suffix restored) against the directory of the current
file's generated name yields the target's generated output file name (stated
for targets whose generated name is in canonical cleaned form). -/
theorem inRun_path_roundtrip (r : Registry) (fs : GlobFS) (base : GoString)
    (typeInfo : TypeInformation) (dep : Dependency)
    (hgen : r.IsFileToGenerate typeInfo.file = true)
    (hok : computeDependency r fs base typeInfo = .ok dep)
    (hcanon : goClean (GetTSFileName typeInfo.file) = GetTSFileName typeInfo.file) :
    goJoin (goDir base) (dep.sourceFile ++ ".ts".data) = GetTSFileName typeInfo.file := by
  rcases computeDependency_ok_inv r fs base typeInfo dep hok with ⟨sf, hsf, hstrip, _⟩
  have hsf2 : inRunSourceFile base (GetTSFileName typeInfo.file) = .ok sf := by
    unfold computeSourceFile at hsf
    rw [if_neg (by simp [hgen])] at hsf
    exact hsf
  rcases inRunSourceFile_ok_inv base (GetTSFileName typeInfo.file) sf hsf2
    with ⟨rel, hrelok, hsfeq⟩
  rcases goRel_shape (goDir base) (GetTSFileName typeInfo.file) rel hrelok with
    hdot | ⟨k, hjd⟩ | ⟨w, y, hy, hrel⟩
  · exfalso
    subst hdot
    have hsfc : sf = ['.', '/', '.'] := by
      rw [hsfeq]
      rfl
    rw [hsfc] at hstrip
    rw [stripTsSuffix_err_of_no_t (by decide)] at hstrip
    cases hstrip
  · exfalso
    have hnt : ('t' : Char) ∉ sf := by
      rw [hsfeq]
      by_cases hpre : ("../".data).isPrefixOf rel = true
      · rw [if_neg (not_not_intro hpre), hjd]
        exact t_not_in_join_dots k
      · rw [if_pos hpre]
        intro hm
        rcases List.mem_append.mp hm with h1 | h1
        · exact absurd h1 (by decide)
        · rw [hjd] at h1
          exact t_not_in_join_dots k h1
    rw [stripTsSuffix_err_of_no_t hnt] at hstrip
    cases hstrip
  · -- the target components end with a .ts piece
    rw [hcanon] at hy
    rcases splitSlash_getLast_suffix ".ts".data (by decide)
      ((GetTSFileName typeInfo.file).take
        ((GetTSFileName typeInfo.file).length - (goExt (GetTSFileName typeInfo.file)).length))
      with ⟨y', hy'⟩
    have htarg : GetTSFileName typeInfo.file =
        (typeInfo.file.take (typeInfo.file.length - (goExt typeInfo.file).length)) ++
          ".ts".data := rfl
    rcases splitSlash_getLast_suffix ".ts".data (by decide)
      (typeInfo.file.take (typeInfo.file.length - (goExt typeInfo.file).length))
      with ⟨y2, hy2⟩
    have hfilt : (splitComps (GetTSFileName typeInfo.file)).getLast? =
        some (y2 ++ ".ts".data) := by
      unfold splitComps
      rw [htarg]
      exact getLast?_filter _ _ _ hy2 (by simp)
    rw [hfilt] at hy
    injection hy with hyeq
    have hsuffix : ∃ Z, sf = Z ++ ".ts".data := by
      rw [hsfeq]
      by_cases hpre : ("../".data).isPrefixOf rel = true
      · refine ⟨w ++ y2, ?_⟩
        rw [if_neg (not_not_intro hpre), hrel, ← hyeq]
        rw [List.append_assoc]
      · refine ⟨"./".data ++ (w ++ y2), ?_⟩
        rw [if_pos hpre, hrel, ← hyeq]
        rw [List.append_assoc, List.append_assoc]
    rcases hsuffix with ⟨Z, hZ⟩
    rw [hZ] at hstrip
    rw [stripTsSuffix_append] at hstrip
    injection hstrip with hZeq
    have hdepsf : dep.sourceFile ++ ".ts".data = sf := by
      rw [← hZeq, hZ]
    rw [hdepsf]
    have hjoin : goJoin (goDir base) sf =
        goClean ((goDir base) ++ '/' :: sf) := by
      unfold goJoin
      rw [if_neg (goDir_ne_nil base)]
    rw [hjoin]
    by_cases hpre : ("../".data).isPrefixOf rel = true
    · have hsfrel : sf = rel := by
        rw [hsfeq, if_neg (not_not_intro hpre)]
      rw [hsfrel]
      rw [rel_correct (goDir base) (GetTSFileName typeInfo.file) rel
        (goDir_ne_nil base) hrelok, hcanon]
    · have hsfrel : sf = '.' :: '/' :: rel := by
        rw [hsfeq, if_pos hpre]
        rfl
      rw [hsfrel]
      rw [clean_insert_dot (goDir base) rel (goDir_ne_nil base)]
      rw [rel_correct (goDir base) (GetTSFileName typeInfo.file) rel
        (goDir_ne_nil base) hrelok, hcanon]

/-- Witness for C4: current output b.ts, in-run target a.proto; dep stores
./a, restoring .ts and resolving against Dir(b.ts) gives a.ts again. -/
theorem inRun_path_roundtrip_witness :
    goJoin (goDir "b.ts".data)
      (({ moduleIdentifier := GetModuleName "p".data "a.proto".data,
          sourceFile := "./a".data } : Dependency).sourceFile ++ ".ts".data) =
      GetTSFileName "a.proto".data :=
  inRun_path_roundtrip
    ⟨[(".p.A".data, ⟨".p.A".data, "p".data, "a.proto".data, [], [], 0, false, none, none⟩)],
     ["a.proto".data], [], []⟩
    ⟨fun _ => .ok [], []⟩ "b.ts".data
    ⟨".p.A".data, "p".data, "a.proto".data, [], [], 0, false, none, none⟩
    { moduleIdentifier := GetModuleName "p".data "a.proto".data, sourceFile := "./a".data }
    (by decide) (by rfl) (by rfl)

end GatewayTS
